import Mathlib

/-!
# Round-robin fixture scheduler: shallow embedding

Shallow embedding of the round-robin fixture scheduler of the repository,
which exists in two textually parallel copies:

* the server-side handler `POST` in
  `src/apps/admin/app/api/fixtures/generate/route.ts`, and
* the client-side preview `generateRoundRobinPreview` in
  `src/unnamed/part_002` (the `FixtureGenerator` component).

Both are embedded independently (each from its own source text), so that the
refinement/equivalence claim between them is a real theorem and not a tautology.

JavaScript `Date` values are modelled as a local wall-clock timestamp: a day
index (an integer; day 0 is chosen to be a Thursday, matching the Unix epoch,
so that `getDay` agrees with JavaScript's `Date.prototype.getDay`) together
with the milliseconds elapsed within that local day.  `setDate` arithmetic
(which carries over month boundaries in JavaScript) is plain day addition in
this model; `setHours(10,0,0,0)` sets the milliseconds-of-day to 36000000;
`toISOString` is an injective rendering of the timestamp, so schedule equality
is compared on the timestamps themselves.
-/

/-- A local wall-clock timestamp: `day` counts local days (day 0 is a
Thursday), `msOfDay` the milliseconds within the day. -/
structure DateTime where
  day : Int
  msOfDay : Int
deriving DecidableEq, Repr

/-- Weekday as in `Date.prototype.getDay`: 0 (Sunday) .. 6 (Saturday).
Day 0 is a Thursday, so the weekday of day `d` is `(d + 4) mod 7`. -/
def DateTime.getDay (d : DateTime) : Int := (d.day + 4) % 7

/-- Model of `setDate(getDate() + k)` on a copy: add `k` days, keep the time of day. -/
def DateTime.addDays (d : DateTime) (k : Int) : DateTime := ⟨d.day + k, d.msOfDay⟩

/-- Model of `setHours(h, 0, 0, 0)`: fix the time of day, zeroing smaller units. -/
def DateTime.setHours (d : DateTime) (h : Int) : DateTime := ⟨d.day, h * 3600000⟩

/-- A team reference as selected from the database / the teams API:
opaque identifier and display name. -/
structure Team where
  id : String
  name : String
deriving DecidableEq, Repr

/-! ## Client-side preview generator (`src/unnamed/part_002`) -/

/-- The synthetic bye placeholder pushed by the preview generator:
`items.push({ id: 'BYE', name: 'BYE' })`. -/
def byeTeam : Team := ⟨"BYE", "BYE"⟩

/-- One entry of the preview schedule (`FixturePreview`): 1-based round
number, home and away team, and the scheduled timestamp. -/
structure FixturePreview where
  round : Nat
  home : Team
  away : Team
  scheduledAt : DateTime
deriving DecidableEq, Repr

/-- The rotation step of the preview generator:
`rotation = [rotation[0], ...rotation.slice(1).slice(-1), ...rotation.slice(1, -1)]`
— the head stays fixed, the last element moves to position 1, and the middle
block shifts right by one. -/
def rotateOnce (rotation : List Team) : List Team :=
  match rotation with
  | [] => []
  | x :: rest => x :: (rest.drop (rest.length - 1) ++ rest.dropLast)

/-- The inner slot loop of one round of the preview generator: for
`i` from `0` to `half - 1`, pair `rotation[i]` with `rotation[n - 1 - i]`,
skipping the slot when either side has identifier `'BYE'`. -/
def roundPairs (n : Nat) (rotation : List Team) : List (Team × Team) :=
  (List.range (n / 2)).filterMap fun i =>
    match rotation.get? i, rotation.get? (n - 1 - i) with
    | some t1, some t2 =>
        if t1.id = "BYE" ∨ t2.id = "BYE" then none else some (t1, t2)
    | _, _ => none

/-- The round loop of the preview generator, unrolled as recursion on the
number of remaining rounds (`fuel`); `round` is the current 0-based round
index, `rotation` the current rotation array.  Each round appends its pairs
(with 1-based round number and the round's date, `start + round*7` days) and
rotates. -/
def buildPreview (n : Nat) (start : DateTime) :
    Nat → Nat → List Team → List FixturePreview
  | 0, _, _ => []
  | fuel + 1, round, rotation =>
      ((roundPairs n rotation).map fun p =>
        { round := round + 1, home := p.1, away := p.2,
          scheduledAt := start.addDays (round * 7) })
      ++ buildPreview n start fuel (round + 1) (rotateOnce rotation)

/-- The helper `daysUntilSat`, i.e. `((6 - now.getDay()) + 7) % 7 || 7`.  The Lean `%` on
`Int` is Euclidean, and both JavaScript operands here are non-negative, so the
remainders agree; `|| 7` replaces a zero result by 7. -/
def daysUntilSat (now : DateTime) : Int :=
  let d := ((6 - now.getDay) + 7) % 7
  if d = 0 then 7 else d

/-- The anchor computation shared by both copies: `start` is `now` moved
forward by `daysUntilSat` days with the time of day set to 10:00:00.000. -/
def startDate (now : DateTime) : DateTime :=
  (now.addDays (daysUntilSat now)).setHours 10

/-- Function `generateRoundRobinPreview` from `src/unnamed/part_002`, with the current
date-time `now` (read from `new Date()` in the source) passed explicitly. -/
def generateRoundRobinPreview (teams : List Team) (now : DateTime) :
    List FixturePreview :=
  if teams.length < 2 then []
  else
    let items := if teams.length % 2 = 1 then teams ++ [byeTeam] else teams
    let n := items.length
    let rounds := n - 1
    buildPreview n (startDate now) rounds 0 items

/-! ## Server-side generation (`src/apps/admin/app/api/fixtures/generate/route.ts`)

Embedded independently of the preview generator, from the route's own text.
The database round trips are abstracted: `teams` is the roster the handler
reads (ordered by name by the query), and each `prisma.fixture.create` call
is modelled by appending the created fixture's data to the result list. -/

/-- The data of one created fixture row. -/
structure Fixture where
  leagueId : String
  homeTeamId : String
  awayTeamId : String
  scheduledAt : DateTime
  status : String
deriving DecidableEq, Repr

/-- The outcome of the `POST` handler: a 400 response with a message, or the
JSON list of created fixtures. -/
inductive PostResult where
  | badRequest (msg : String)
  | ok (fixtures : List Fixture)
deriving DecidableEq, Repr

/-- The server's rotation step — the same splice expression as the preview's,
embedded from the route's own line 75. -/
def serverRotate (rotation : List Team) : List Team :=
  match rotation with
  | [] => []
  | x :: rest => x :: (rest.drop (rest.length - 1) ++ rest.dropLast)

/-- The server's inner slot loop: build the `pairs` array of
`{homeId, awayId}` for one round, skipping `'BYE'` slots. -/
def serverRoundPairs (n : Nat) (rotation : List Team) :
    List (String × String) :=
  (List.range (n / 2)).filterMap fun i =>
    match rotation.get? i, rotation.get? (n - 1 - i) with
    | some t1, some t2 =>
        if t1.id = "BYE" ∨ t2.id = "BYE" then none else some (t1.id, t2.id)
    | _, _ => none

/-- The server's round loop: per round, persist each pair of the round (in
order) as a fixture with the round's date and status `'SCHEDULED'`, then
rotate. -/
def serverBuild (leagueId : String) (n : Nat) (start : DateTime) :
    Nat → Nat → List Team → List Fixture
  | 0, _, _ => []
  | fuel + 1, round, rotation =>
      ((serverRoundPairs n rotation).map fun p =>
        { leagueId := leagueId, homeTeamId := p.1, awayTeamId := p.2,
          scheduledAt := start.addDays (round * 7), status := "SCHEDULED" })
      ++ serverBuild leagueId n start fuel (round + 1) (serverRotate rotation)

/-- The `POST` handler of `route.ts`, with the roster and `new Date()` passed
explicitly.  A missing `leagueId` (the falsy check on a string body field,
i.e. the empty string in this model) and a roster of fewer than two teams
each yield a 400 response before any fixture is created. -/
def fixturesGeneratePOST (leagueId : String) (teams : List Team)
    (now : DateTime) : PostResult :=
  if leagueId = "" then .badRequest "Missing leagueId"
  else if teams.length < 2 then
    .badRequest "At least two teams are required"
  else
    let items := if teams.length % 2 = 1 then teams ++ [byeTeam] else teams
    let n := items.length
    let rounds := n - 1
    .ok (serverBuild leagueId n (startDate now) rounds 0 items)

/-! ## Refinement: the server loop is the preview loop projected to fixtures -/

/-- The two copies of the rotation splice are the same function. -/
theorem serverRotate_eq_rotateOnce : ∀ l, serverRotate l = rotateOnce l
  | [] => rfl
  | _ :: _ => rfl

/-- The server's per-round pair list is the preview's with each team replaced
by its identifier. -/
theorem serverRoundPairs_eq (n : Nat) (rot : List Team) :
    serverRoundPairs n rot = (roundPairs n rot).map fun p => (p.1.id, p.2.id) := by
  unfold serverRoundPairs roundPairs
  rw [List.map_filterMap]
  apply List.filterMap_congr
  intro i _
  cases rot.get? i with
  | none => rfl
  | some t1 =>
    cases rot.get? (n - 1 - i) with
    | none => rfl
    | some t2 =>
      by_cases h : t1.id = "BYE" ∨ t2.id = "BYE"
      · simp [h]
      · simp [h]

/-- The server's round loop produces exactly the preview's fixtures, each
projected to a fixture row. -/
theorem serverBuild_eq_buildPreview (lid : String) (n : Nat) (start : DateTime) :
    ∀ fuel round rot,
      serverBuild lid n start fuel round rot =
        (buildPreview n start fuel round rot).map
          fun f => ⟨lid, f.home.id, f.away.id, f.scheduledAt, "SCHEDULED"⟩
  | 0, _, _ => rfl
  | fuel + 1, round, rot => by
    show ((serverRoundPairs n rot).map _) ++ serverBuild lid n start fuel (round + 1) (serverRotate rot) = _
    rw [serverRoundPairs_eq, serverRotate_eq_rotateOnce,
      serverBuild_eq_buildPreview lid n start fuel (round + 1) (rotateOnce rot)]
    show _ = (((roundPairs n rot).map _) ++ buildPreview n start fuel (round + 1) (rotateOnce rot)).map _
    rw [List.map_append, List.map_map, List.map_map]
    rfl

/-- The padded roster both copies build: the roster itself, with one bye
placeholder appended when its size is odd. -/
def paddedItems (teams : List Team) : List Team :=
  if teams.length % 2 = 1 then teams ++ [byeTeam] else teams

/-- Unfolding of the preview generator on a sufficient roster. -/
theorem generateRoundRobinPreview_eq (teams : List Team) (now : DateTime)
    (h : 2 ≤ teams.length) :
    generateRoundRobinPreview teams now =
      buildPreview (paddedItems teams).length (startDate now)
        ((paddedItems teams).length - 1) 0 (paddedItems teams) := by
  unfold generateRoundRobinPreview paddedItems
  rw [if_neg (by omega)]

/-- Unfolding of the server handler on a sufficient roster. -/
theorem fixturesGeneratePOST_eq (lid : String) (teams : List Team)
    (now : DateTime) (hlid : lid ≠ "") (h : 2 ≤ teams.length) :
    fixturesGeneratePOST lid teams now =
      .ok (serverBuild lid (paddedItems teams).length (startDate now)
        ((paddedItems teams).length - 1) 0 (paddedItems teams)) := by
  unfold fixturesGeneratePOST paddedItems
  rw [if_neg hlid, if_neg (by omega)]

/-- C4: with the same roster and the same current date-time, the server-side
fixtures-generate handler and the client-side preview generator produce
exactly the same schedule — the same (home, away) pairings in the same order
with the same scheduled date for each round; the server's fixture rows are
the preview entries projected to row data. -/
theorem preview_server_same_schedule (lid : String) (teams : List Team)
    (now : DateTime) (hlid : lid ≠ "") (hlen : 2 ≤ teams.length) :
    fixturesGeneratePOST lid teams now =
      .ok ((generateRoundRobinPreview teams now).map
        fun f => ⟨lid, f.home.id, f.away.id, f.scheduledAt, "SCHEDULED"⟩) := by
  rw [fixturesGeneratePOST_eq lid teams now hlid hlen,
    generateRoundRobinPreview_eq teams now hlen]
  exact congrArg PostResult.ok (serverBuild_eq_buildPreview lid _ _ _ _ _)

/-- Closed witness for `preview_server_same_schedule` at a concrete league and
roster. -/
theorem preview_server_same_schedule_witness :
    fixturesGeneratePOST "L1" [⟨"a", "Alpha"⟩, ⟨"b", "Beta"⟩] ⟨0, 0⟩ =
      .ok ((generateRoundRobinPreview [⟨"a", "Alpha"⟩, ⟨"b", "Beta"⟩] ⟨0, 0⟩).map
        fun f => ⟨"L1", f.home.id, f.away.id, f.scheduledAt, "SCHEDULED"⟩) :=
  preview_server_same_schedule "L1" _ _ (by decide) (by decide)

/-- C7: the scheduler is deterministic — with the current date-time held
fixed, two invocations with identical arguments yield identical output, for
both the preview generator and the server-side handler. -/
theorem scheduler_deterministic (teams₁ teams₂ : List Team)
    (now₁ now₂ : DateTime) (lid₁ lid₂ : String)
    (ht : teams₁ = teams₂) (hn : now₁ = now₂) (hl : lid₁ = lid₂) :
    generateRoundRobinPreview teams₁ now₁ = generateRoundRobinPreview teams₂ now₂ ∧
      fixturesGeneratePOST lid₁ teams₁ now₁ = fixturesGeneratePOST lid₂ teams₂ now₂ := by
  subst ht; subst hn; subst hl; exact ⟨rfl, rfl⟩

/-- Closed witness for `scheduler_deterministic` at a concrete input. -/
theorem scheduler_deterministic_witness :
    generateRoundRobinPreview [⟨"a", "Alpha"⟩] ⟨5, 1⟩ =
        generateRoundRobinPreview [⟨"a", "Alpha"⟩] ⟨5, 1⟩ ∧
      fixturesGeneratePOST "L1" [⟨"a", "Alpha"⟩] ⟨5, 1⟩ =
        fixturesGeneratePOST "L1" [⟨"a", "Alpha"⟩] ⟨5, 1⟩ :=
  scheduler_deterministic _ _ _ _ _ _ rfl rfl rfl

/-- On a roster of fewer than two teams the preview generator returns the
empty schedule (first guard of `generateRoundRobinPreview`). -/
theorem generateRoundRobinPreview_short (teams : List Team) (now : DateTime)
    (h : teams.length < 2) : generateRoundRobinPreview teams now = [] := by
  unfold generateRoundRobinPreview
  rw [if_pos h]

/-- C8: a roster with fewer than two team references makes the server-side
handler answer with the insufficient-teams 400 response and create no
fixtures, and makes the client-side preview produce no schedule. -/
theorem insufficient_teams_rejected (lid : String) (teams : List Team)
    (now : DateTime) (hlid : lid ≠ "") (h : teams.length < 2) :
    fixturesGeneratePOST lid teams now =
        .badRequest "At least two teams are required" ∧
      generateRoundRobinPreview teams now = [] := by
  refine ⟨?_, generateRoundRobinPreview_short teams now h⟩
  unfold fixturesGeneratePOST
  rw [if_neg hlid, if_pos h]

/-- Closed witness for `insufficient_teams_rejected` on a one-team roster. -/
theorem insufficient_teams_rejected_witness :
    fixturesGeneratePOST "L1" [⟨"a", "Alpha"⟩] ⟨0, 0⟩ =
        .badRequest "At least two teams are required" ∧
      generateRoundRobinPreview [⟨"a", "Alpha"⟩] ⟨0, 0⟩ = [] :=
  insufficient_teams_rejected "L1" _ _ (by decide) (by decide)

/-! ## The first-round anchor (next Saturday, 10:00, strictly forward) -/

/-- C5: the anchor is the next Saturday at 10:00:00.000, strictly after the
current day: its weekday is Saturday, its time of day is 10:00:00.000 (in
milliseconds), it lies strictly after `now`'s day and at most 7 days ahead;
on a Wednesday it is the upcoming Saturday (3 days ahead), and on a Saturday
— at any time of day — it is the Saturday seven days later, never the same
day. -/
theorem anchor_next_saturday (now : DateTime) :
    (startDate now).getDay = 6 ∧
      (startDate now).msOfDay = 36000000 ∧
      now.day < (startDate now).day ∧
      (startDate now).day ≤ now.day + 7 ∧
      (now.getDay = 3 → (startDate now).day = now.day + 3) ∧
      (now.getDay = 6 → (startDate now).day = now.day + 7) := by
  unfold startDate daysUntilSat DateTime.getDay DateTime.addDays DateTime.setHours
  dsimp only
  split
  · refine ⟨?_, rfl, ?_, ?_, fun h3 => ?_, fun h6 => ?_⟩ <;> omega
  · refine ⟨?_, rfl, ?_, ?_, fun h3 => ?_, fun h6 => ?_⟩ <;> omega

/-- Closed witness for `anchor_next_saturday`: day 6 is a Wednesday and the
anchor lands 3 days later; day 2 is a Saturday and the anchor lands 7 days
later. -/
theorem anchor_next_saturday_witness :
    (startDate ⟨6, 0⟩).day = 6 + 3 ∧ (startDate ⟨2, 123⟩).day = 2 + 7 :=
  ⟨(anchor_next_saturday ⟨6, 0⟩).2.2.2.2.1 (by decide),
   (anchor_next_saturday ⟨2, 123⟩).2.2.2.2.2 (by decide)⟩

/-! ## Positions of fixtures in the round loop -/

/-- Each entry of a round's pair list has no `'BYE'` side. -/
theorem roundPairs_no_bye {n : Nat} {rot : List Team} {p : Team × Team}
    (hp : p ∈ roundPairs n rot) : p.1.id ≠ "BYE" ∧ p.2.id ≠ "BYE" := by
  unfold roundPairs at hp
  obtain ⟨i, -, hi⟩ := List.mem_filterMap.mp hp
  revert hi
  cases rot.get? i with
  | none => intro h; exact Option.noConfusion h
  | some t1 =>
    cases rot.get? (n - 1 - i) with
    | none => intro h; exact Option.noConfusion h
    | some t2 =>
      dsimp only
      split_ifs with h
      · intro hc; exact hc.elim
      · intro hc
        obtain rfl := Option.some.inj hc
        exact ⟨fun h1 => h (Or.inl h1), fun h2 => h (Or.inr h2)⟩

/-- Every fixture of the round loop carries a 1-based round number in the
window of rounds still to run, and the round's date: the start date plus
`(round - 1) * 7` days. -/
theorem buildPreview_mem (n : Nat) (start : DateTime) :
    ∀ fuel r0 rot f, f ∈ buildPreview n start fuel r0 rot →
      r0 + 1 ≤ f.round ∧ f.round ≤ r0 + fuel ∧
        f.scheduledAt = start.addDays ((f.round - 1) * 7) ∧
        f.home.id ≠ "BYE" ∧ f.away.id ≠ "BYE"
  | 0, _, _, _, h => absurd h (List.not_mem_nil _)
  | fuel + 1, r0, rot, f, h => by
    rcases List.mem_append.mp h with hhead | htail
    · obtain ⟨p, hp, rfl⟩ := List.mem_map.mp hhead
      obtain ⟨h1, h2⟩ := roundPairs_no_bye hp
      refine ⟨Nat.le_refl _, show r0 + 1 ≤ r0 + (fuel + 1) by omega, ?_, h1, h2⟩
      show start.addDays ((r0 : Int) * 7) = start.addDays (((r0 + 1 : Nat) - 1) * 7)
      push_cast
      ring_nf
    · obtain ⟨a, b, c, d, e⟩ :=
        buildPreview_mem n start fuel (r0 + 1) (rotateOnce rot) f htail
      exact ⟨by omega, by omega, c, d, e⟩

/-- C6: the date assigned to round `k` (1-based field `round = k + 1`) is the
date of round 0 plus `k × 7` days, with the time-of-day component unchanged
across rounds. -/
theorem date_spacing (teams : List Team) (now : DateTime)
    (f g : FixturePreview) (hf : f ∈ generateRoundRobinPreview teams now)
    (hg : g ∈ generateRoundRobinPreview teams now) (hg1 : g.round = 1) :
    f.scheduledAt = g.scheduledAt.addDays ((f.round - 1) * 7) ∧
      f.scheduledAt.msOfDay = g.scheduledAt.msOfDay := by
  have hlen : ¬ teams.length < 2 := by
    intro hlt
    rw [generateRoundRobinPreview_short teams now hlt] at hf
    exact List.not_mem_nil f hf
  rw [generateRoundRobinPreview_eq teams now (by omega)] at hf hg
  obtain ⟨-, -, hfd, -, -⟩ := buildPreview_mem _ _ _ _ _ f hf
  obtain ⟨-, -, hgd, -, -⟩ := buildPreview_mem _ _ _ _ _ g hg
  rw [hg1] at hgd
  rw [hfd, hgd]
  refine ⟨?_, rfl⟩
  show DateTime.mk _ _ = DateTime.mk _ _
  rw [DateTime.mk.injEq]
  refine ⟨?_, rfl⟩
  simp only [DateTime.addDays]
  push_cast
  ring

/-- Closed witness for `date_spacing`: in the schedule for four teams, the
round-3 fixtures sit 14 days after the round-1 fixtures. -/
theorem date_spacing_witness :
    ({ round := 3, home := ⟨"a", "A"⟩, away := ⟨"b", "B"⟩,
       scheduledAt := ⟨16, 36000000⟩ } : FixturePreview).scheduledAt =
      ({ round := 1, home := ⟨"a", "A"⟩, away := ⟨"d", "D"⟩,
         scheduledAt := ⟨2, 36000000⟩ } : FixturePreview).scheduledAt.addDays
        ((3 - 1) * 7) :=
  (date_spacing [⟨"a", "A"⟩, ⟨"b", "B"⟩, ⟨"c", "C"⟩, ⟨"d", "D"⟩] ⟨0, 0⟩
    _ _ (by decide) (by decide) (by decide)).1

/-- C10: a real roster team whose identifier is the literal string `'BYE'` is
treated as the bye placeholder — no emitted matchup of any schedule carries
the identifier `'BYE'` on either side, and full coverage fails on rosters
that use it: the two-team roster `[t1, BYE]` yields an empty schedule, and
the three-team roster `[BYE, t1, t2]` emits only one of its three pairs. -/
theorem real_bye_team_absorbed :
    (∀ (teams : List Team) (now : DateTime) (f : FixturePreview),
        f ∈ generateRoundRobinPreview teams now →
          f.home.id ≠ "BYE" ∧ f.away.id ≠ "BYE") ∧
      generateRoundRobinPreview [⟨"t1", "Alpha"⟩, ⟨"BYE", "Bye FC"⟩] ⟨0, 0⟩ = [] ∧
      (generateRoundRobinPreview
        [⟨"BYE", "Bye FC"⟩, ⟨"t1", "Alpha"⟩, ⟨"t2", "Beta"⟩] ⟨0, 0⟩).length = 1 := by
  refine ⟨?_, by decide, by decide⟩
  intro teams now f hf
  by_cases h : teams.length < 2
  · rw [generateRoundRobinPreview_short teams now h] at hf
    exact absurd hf (List.not_mem_nil f)
  · rw [generateRoundRobinPreview_eq teams now (by omega)] at hf
    obtain ⟨-, -, -, h1, h2⟩ := buildPreview_mem _ _ _ _ _ f hf
    exact ⟨h1, h2⟩

/-- Closed witness for `real_bye_team_absorbed`, applying it to a fixture of
a concrete schedule. -/
theorem real_bye_team_absorbed_witness :
    ({ round := 1, home := ⟨"a", "A"⟩, away := ⟨"b", "B"⟩,
       scheduledAt := ⟨2, 36000000⟩ } : FixturePreview).home.id ≠ "BYE" :=
  (real_bye_team_absorbed.1 [⟨"a", "A"⟩, ⟨"b", "B"⟩] ⟨0, 0⟩ _ (by decide)).1

/-- Counterexample to C1 as stated: the roster `[t1, BYE]` has two teams with
pairwise-distinct identifiers, yet its schedule contains the unordered pair
{t1, BYE} zero times, not once — the literal identifier `'BYE'` makes the
generator skip the slot. -/
theorem full_coverage_cex :
    ([⟨"t1", "Alpha"⟩, ⟨"BYE", "Bye FC"⟩] : List Team).length = 2 ∧
      (([⟨"t1", "Alpha"⟩, ⟨"BYE", "Bye FC"⟩] : List Team).map Team.id).Nodup ∧
      (generateRoundRobinPreview [⟨"t1", "Alpha"⟩, ⟨"BYE", "Bye FC"⟩] ⟨0, 0⟩).countP
        (fun f => decide ((f.home.id = "t1" ∧ f.away.id = "BYE") ∨
          (f.home.id = "BYE" ∧ f.away.id = "t1"))) = 0 := by
  decide

/-- Counterexample to C3 as stated: on the two-team roster `[t1, BYE]` (with
pairwise-distinct identifiers) the generator runs `n - 1 = 1` round, but that
round contains no real matchup at all — no emitted fixture has round number
1. -/
theorem round_count_cex :
    ([⟨"t1", "Alpha"⟩, ⟨"BYE", "Bye FC"⟩] : List Team).length = 2 ∧
      (([⟨"t1", "Alpha"⟩, ⟨"BYE", "Bye FC"⟩] : List Team).map Team.id).Nodup ∧
      ¬ ∃ f ∈ generateRoundRobinPreview [⟨"t1", "Alpha"⟩, ⟨"BYE", "Bye FC"⟩] ⟨0, 0⟩,
          f.round = 1 := by
  decide

/-! ## Closed form of the rotation

The splice keeps the head fixed and rotates the tail one step to the right,
i.e. the tail after `r` rounds is the original tail rotated left by
`r * (m - 1)` positions, where `m` is the tail's length.  The element at
rotation position `k` of round `r` is therefore the original item at index
`idxAt m (r * (m - 1)) k`. -/

/-- The rotation array after `j` applications of the rotation step. -/
def rotIter (rot : List Team) : Nat → List Team
  | 0 => rot
  | j + 1 => rotateOnce (rotIter rot j)

/-- Iterating the rotation commutes with one extra step in front. -/
theorem rotIter_rotateOnce (rot : List Team) :
    ∀ j, rotIter (rotateOnce rot) j = rotIter rot (j + 1)
  | 0 => rfl
  | j + 1 => by
    show rotateOnce (rotIter (rotateOnce rot) j) = rotateOnce (rotIter rot (j + 1))
    rw [rotIter_rotateOnce rot j]

/-- One rotation step on a cons cell is a left-rotation of the tail by
`length - 1`. -/
theorem rotateOnce_cons (x : Team) (rest : List Team) :
    rotateOnce (x :: rest) = x :: rest.rotate (rest.length - 1) := by
  show x :: (rest.drop (rest.length - 1) ++ rest.dropLast) = _
  rw [List.rotate_eq_drop_append_take (by omega), List.dropLast_eq_take]

/-- Iterated rotation on a cons cell: the tail is left-rotated by
`r * (length - 1)`. -/
theorem rotIter_cons (x : Team) (rest : List Team) :
    ∀ r, rotIter (x :: rest) r = x :: rest.rotate (r * (rest.length - 1))
  | 0 => by rw [Nat.zero_mul, List.rotate_zero]; rfl
  | r + 1 => by
    show rotateOnce (rotIter (x :: rest) r) = _
    rw [rotIter_cons x rest r, rotateOnce_cons, List.length_rotate,
      List.rotate_rotate, Nat.succ_mul]

/-- Original-items index sitting at rotation position `k` in round `r` of the
circle method (with tail length `m` and accumulated shift `s`): position 0 is
the fixed seat, position `k ≥ 1` holds the original index
`(k - 1 + s) % m + 1`. -/
def idxAt (m s k : Nat) : Nat :=
  if k = 0 then 0 else (k - 1 + s) % m + 1

/-- The item of the padded roster `x :: rest` at index `j` (total, with the
head as the irrelevant default). -/
def itemAt (x : Team) (rest : List Team) (j : Nat) : Team :=
  (x :: rest).getD j x

theorem itemAt_succ (x : Team) (rest : List Team) {j : Nat}
    (h : j < rest.length) : itemAt x rest (j + 1) = rest.get ⟨j, h⟩ := by
  unfold itemAt
  rw [List.getD_cons_succ, List.getD_eq_getElem rest x h]
  exact (List.get_eq_getElem rest ⟨j, h⟩).symm

theorem idxAt_le {m : Nat} (hm : 0 < m) (s k : Nat) : idxAt m s k ≤ m := by
  unfold idxAt
  split
  · omega
  · have := Nat.mod_lt (k - 1 + s) hm
    omega

theorem idxAt_eq_zero_iff {m : Nat} (s k : Nat) : idxAt m s k = 0 ↔ k = 0 := by
  unfold idxAt
  split <;> simp_all

theorem idxAt_inj {m : Nat} (hm : 0 < m) (s : Nat) {k1 k2 : Nat}
    (h1 : k1 ≤ m) (h2 : k2 ≤ m) (h : idxAt m s k1 = idxAt m s k2) : k1 = k2 := by
  unfold idxAt at h
  split at h <;> split at h
  · omega
  · omega
  · omega
  · have hmod : (k1 - 1 + s) % m = (k2 - 1 + s) % m := by omega
    have : k1 - 1 ≡ k2 - 1 [MOD m] :=
      Nat.ModEq.add_right_cancel' s hmod
    have := Nat.ModEq.eq_of_lt_of_lt this (by omega) (by omega)
    omega

/-- Element lookup in the rotated array, in closed form. -/
theorem rotIter_getElem (x : Team) (rest : List Team) (r : Nat) :
    ∀ k, k ≤ rest.length →
      (rotIter (x :: rest) r).get? k =
        some (itemAt x rest (idxAt rest.length (r * (rest.length - 1)) k)) := by
  intro k hk
  rw [rotIter_cons]
  cases k with
  | zero => rfl
  | succ k' =>
    have hk' : k' < rest.length := by omega
    have hm : 0 < rest.length := by omega
    have hlt : k' < (rest.rotate (r * (rest.length - 1))).length := by
      rw [List.length_rotate]; exact hk'
    have hmod : (k' + r * (rest.length - 1)) % rest.length < rest.length :=
      Nat.mod_lt _ hm
    have hidx : idxAt rest.length (r * (rest.length - 1)) (k' + 1) =
        (k' + r * (rest.length - 1)) % rest.length + 1 := by
      unfold idxAt
      rw [if_neg (by omega)]
      simp
    show (rest.rotate (r * (rest.length - 1))).get? k' = _
    rw [List.get?_eq_get hlt, List.get_rotate, hidx, itemAt_succ x rest hmod]

/-! ## Modular arithmetic toolbox

Positions in the rotating tail live in `ZMod m` (the tail length `m` is odd
because the padded roster length is even).  Each unordered pair of original
indices is emitted by exactly one `(round, slot)`: the slot sums determine the
round (`2` is invertible mod an odd `m`), and the slot follows. -/

theorem natmod_eq_iff {m a b : Nat} (hm : 0 < m) (hb : b < m) :
    a % m = b ↔ (a : ZMod m) = (b : ZMod m) := by
  constructor
  · intro h
    calc (a : ZMod m) = ((a % m : Nat) : ZMod m) := (ZMod.natCast_mod a m).symm
    _ = (b : ZMod m) := by rw [h]
  · intro h
    have hmod : a % m = b % m := (ZMod.natCast_eq_natCast_iff a b m).mp h
    rw [hmod]
    exact Nat.mod_eq_of_lt hb

theorem castA {m : Nat} (hm : 0 < m) {i : Nat} (hi : 1 ≤ i) (r : Nat) :
    ((i - 1 + r * (m - 1) : Nat) : ZMod m) = (i : ZMod m) - 1 - r := by
  push_cast [Nat.cast_sub hi, Nat.cast_sub hm]
  rw [ZMod.natCast_self]
  ring

theorem castB {m : Nat} (hm : 0 < m) {i : Nat} (hi : i ≤ m - 1) (r : Nat) :
    ((m - i - 1 + r * (m - 1) : Nat) : ZMod m) = -(i : ZMod m) - 1 - r := by
  have h1 : m - i - 1 = m - (i + 1) := by omega
  have h2 : i + 1 ≤ m := by omega
  rw [h1]
  push_cast [Nat.cast_sub h2, Nat.cast_sub hm]
  rw [ZMod.natCast_self]
  ring

theorem two_mul_halfup {m : Nat} (hm2 : m % 2 = 1) :
    (2 : ZMod m) * (((m + 1) / 2 : Nat) : ZMod m) = 1 := by
  have h : 2 * ((m + 1) / 2) = m + 1 := by omega
  calc (2 : ZMod m) * (((m + 1) / 2 : Nat) : ZMod m)
      = ((2 * ((m + 1) / 2) : Nat) : ZMod m) := by push_cast; ring
  _ = ((m + 1 : Nat) : ZMod m) := by rw [h]
  _ = 1 := by push_cast [ZMod.natCast_self]; ring

theorem zmod_two_cancel {m : Nat} (hm2 : m % 2 = 1) {a b : ZMod m}
    (h : 2 * a = 2 * b) : a = b := by
  have hc := two_mul_halfup hm2
  calc a = ((2 : ZMod m) * (((m + 1) / 2 : Nat) : ZMod m)) * a := by rw [hc, one_mul]
  _ = (((m + 1) / 2 : Nat) : ZMod m) * (2 * a) := by ring
  _ = (((m + 1) / 2 : Nat) : ZMod m) * (2 * b) := by rw [h]
  _ = ((2 : ZMod m) * (((m + 1) / 2 : Nat) : ZMod m)) * b := by ring
  _ = b := by rw [hc, one_mul]

theorem val_natCast_self {m : Nat} (hm : 0 < m) (z : ZMod m) :
    ((z.val : Nat) : ZMod m) = z := by
  haveI : NeZero m := ⟨by omega⟩
  exact ZMod.natCast_rightInverse z

theorem natCast_val_eq {m r : Nat} (hm : 0 < m) (hr : r < m) {z : ZMod m}
    (h : (r : ZMod m) = z) : r = z.val := by
  haveI : NeZero m := ⟨by omega⟩
  calc r = ((r : ZMod m)).val := (ZMod.val_cast_of_lt hr).symm
  _ = z.val := by rw [h]

/-- The head-slot equation: for each tail index `q'` there is exactly one
round `r < m` whose slot 0 pairs the fixed seat with original tail index
`q'`. -/
theorem solve_head {m : Nat} (hm : 0 < m) (q' : Nat) (hq : q' < m) :
    ∃ r, r < m ∧ (m - 1 + r * (m - 1)) % m = q' ∧
      ∀ r', r' < m → (m - 1 + r' * (m - 1)) % m = q' → r' = r := by
  haveI : NeZero m := ⟨by omega⟩
  refine ⟨(-(q' : ZMod m) - 1).val, ZMod.val_lt _, ?_, ?_⟩
  · rw [show m - 1 + (-(q' : ZMod m) - 1).val * (m - 1)
        = m - 0 - 1 + (-(q' : ZMod m) - 1).val * (m - 1) from by omega]
    rw [natmod_eq_iff hm hq, castB hm (show 0 ≤ m - 1 from by omega),
      val_natCast_self hm]
    push_cast
    ring
  · intro r' hr' he
    rw [show m - 1 + r' * (m - 1) = m - 0 - 1 + r' * (m - 1) from by omega,
      natmod_eq_iff hm hq, castB hm (show 0 ≤ m - 1 from by omega)] at he
    refine natCast_val_eq hm hr' ?_
    have h0 : -(((0 : Nat) : ZMod m)) - 1 - (r' : ZMod m) = (q' : ZMod m) := he
    push_cast at h0
    linear_combination -h0

/-- The tail-slot equations: for each unordered pair of distinct tail
offsets `{P, Q}` there is exactly one `(round, slot)` with `r < m` and
`1 ≤ i < (m+1)/2` whose slot pairs them (in one of the two orientations). -/
theorem solve_rest {m : Nat} (hm2 : m % 2 = 1) (P Q : Nat) (hP : P < m)
    (hQ : Q < m) (hPQ : P ≠ Q) :
    ∃ r i, r < m ∧ 1 ≤ i ∧ i < (m + 1) / 2 ∧
      (((i - 1 + r * (m - 1)) % m = P ∧ (m - i - 1 + r * (m - 1)) % m = Q) ∨
        ((i - 1 + r * (m - 1)) % m = Q ∧ (m - i - 1 + r * (m - 1)) % m = P)) ∧
      ∀ r' i', r' < m → 1 ≤ i' → i' < (m + 1) / 2 →
        (((i' - 1 + r' * (m - 1)) % m = P ∧ (m - i' - 1 + r' * (m - 1)) % m = Q) ∨
          ((i' - 1 + r' * (m - 1)) % m = Q ∧ (m - i' - 1 + r' * (m - 1)) % m = P)) →
        r' = r ∧ i' = i := by
  have hm : 0 < m := by omega
  haveI : NeZero m := ⟨by omega⟩
  set ρ : ZMod m := -((((m + 1) / 2 : Nat) : ZMod m) * ((P : ZMod m) + Q + 2)) with hρdef
  have h2ρ : (2 : ZMod m) * ρ = -((P : ZMod m) + (Q : ZMod m) + 2) := by
    rw [hρdef]
    calc (2 : ZMod m) * -((((m + 1) / 2 : Nat) : ZMod m) * ((P : ZMod m) + Q + 2))
        = -(((2 : ZMod m) * (((m + 1) / 2 : Nat) : ZMod m)) * ((P : ZMod m) + Q + 2)) := by
          ring
    _ = -((P : ZMod m) + (Q : ZMod m) + 2) := by rw [two_mul_halfup hm2, one_mul]
  set iA : ZMod m := (P : ZMod m) + 1 + ρ with hiAdef
  set iB : ZMod m := (Q : ZMod m) + 1 + ρ with hiBdef
  have hsum : iA + iB = 0 := by
    rw [hiAdef, hiBdef]
    linear_combination h2ρ
  have hAB : iB = -iA := eq_neg_of_add_eq_zero_right hsum
  have castPQ : (P : ZMod m) ≠ (Q : ZMod m) := by
    intro h
    have h1 : P % m = Q := (natmod_eq_iff hm hQ).mpr h
    rw [Nat.mod_eq_of_lt hP] at h1
    exact hPQ h1
  have hA0 : iA ≠ 0 := by
    intro h0
    have hB0 : iB = 0 := by rw [hAB, h0, neg_zero]
    apply castPQ
    have e1 : (P : ZMod m) = -1 - ρ := by
      rw [hiAdef] at h0; linear_combination h0
    have e2 : (Q : ZMod m) = -1 - ρ := by
      rw [hiBdef] at hB0; linear_combination hB0
    rw [e1, e2]
  set r0 := ρ.val with hr0def
  have hr0 : r0 < m := ZMod.val_lt ρ
  have hcr : ((r0 : Nat) : ZMod m) = ρ := val_natCast_self hm ρ
  set a := iA.val with hadef
  have hca : ((a : Nat) : ZMod m) = iA := val_natCast_self hm iA
  have haM : a < m := ZMod.val_lt iA
  have ha1 : 1 ≤ a := by
    rcases Nat.eq_zero_or_pos a with h0 | h1
    · exact absurd ((ZMod.val_eq_zero iA).mp h0) hA0
    · exact h1
  set b := m - a with hbdef
  have hb1 : 1 ≤ b := by omega
  have hbM : b < m := by omega
  have hcb : ((b : Nat) : ZMod m) = iB := by
    rw [hbdef, Nat.cast_sub (by omega : a ≤ m), ZMod.natCast_self, hca, hAB]
    ring
  -- the four candidate slot equations
  have eqA1 : (a - 1 + r0 * (m - 1)) % m = P := by
    rw [natmod_eq_iff hm hP, castA hm ha1 r0, hca, hcr, hiAdef]
    ring
  have eqA2 : (m - a - 1 + r0 * (m - 1)) % m = Q := by
    rw [natmod_eq_iff hm hQ, castB hm (by omega : a ≤ m - 1) r0, hca, hcr, hiAdef]
    linear_combination -h2ρ
  have eqB1 : (b - 1 + r0 * (m - 1)) % m = Q := by
    rw [natmod_eq_iff hm hQ, castA hm hb1 r0, hcb, hcr, hiBdef]
    ring
  have eqB2 : (m - b - 1 + r0 * (m - 1)) % m = P := by
    rw [natmod_eq_iff hm hP, castB hm (by omega : b ≤ m - 1) r0, hcb, hcr, hiBdef]
    linear_combination -h2ρ
  have hab : a + b = m := by omega
  -- uniqueness, shared by the two branches
  have huniq : ∀ r' i', r' < m → 1 ≤ i' → i' < (m + 1) / 2 →
      (((i' - 1 + r' * (m - 1)) % m = P ∧ (m - i' - 1 + r' * (m - 1)) % m = Q) ∨
        ((i' - 1 + r' * (m - 1)) % m = Q ∧ (m - i' - 1 + r' * (m - 1)) % m = P)) →
      r' = r0 ∧ (i' = a ∨ i' = b) := by
    intro r' i' hr' hi1 hi2 hd
    have hi'M : i' < m := by omega
    have hi'm1 : i' ≤ m - 1 := by omega
    have key : ∀ U V : ZMod m,
        (i' : ZMod m) - 1 - r' = U → -(i' : ZMod m) - 1 - r' = V →
        U + V = (P : ZMod m) + Q → (r' : ZMod m) = ρ := by
      intro U V h1 h2 hUV
      apply zmod_two_cancel hm2
      rw [h2ρ]
      linear_combination -h1 - h2 - hUV
    rcases hd with ⟨e1, e2⟩ | ⟨e1, e2⟩
    · rw [natmod_eq_iff hm hP, castA hm hi1 r'] at e1
      rw [natmod_eq_iff hm hQ, castB hm hi'm1 r'] at e2
      have hrr : (r' : ZMod m) = ρ := key _ _ e1 e2 rfl
      have hr'eq : r' = r0 := natCast_val_eq hm hr' hrr
      refine ⟨hr'eq, Or.inl ?_⟩
      apply natCast_val_eq hm hi'M
      rw [hiAdef]
      linear_combination e1 + hrr
    · rw [natmod_eq_iff hm hQ, castA hm hi1 r'] at e1
      rw [natmod_eq_iff hm hP, castB hm hi'm1 r'] at e2
      have hrr : (r' : ZMod m) = ρ := key _ _ e1 e2 (by ring)
      have hr'eq : r' = r0 := natCast_val_eq hm hr' hrr
      refine ⟨hr'eq, Or.inr ?_⟩
      have : i' = iB.val := by
        apply natCast_val_eq hm hi'M
        rw [hiBdef]
        linear_combination e1 + hrr
      have hbval : iB.val = b := by
        have hvb := congrArg ZMod.val hcb
        rw [ZMod.val_cast_of_lt hbM] at hvb
        exact hvb.symm
      omega
  by_cases hch : a < (m + 1) / 2
  · refine ⟨r0, a, hr0, ha1, hch, Or.inl ⟨eqA1, eqA2⟩, ?_⟩
    intro r' i' hr' hi1 hi2 hd
    obtain ⟨hre, hie⟩ := huniq r' i' hr' hi1 hi2 hd
    refine ⟨hre, ?_⟩
    rcases hie with h | h
    · exact h
    · omega
  · have hbch : b < (m + 1) / 2 := by omega
    refine ⟨r0, b, hr0, hb1, hbch, Or.inr ⟨eqB1, eqB2⟩, ?_⟩
    intro r' i' hr' hi1 hi2 hd
    obtain ⟨hre, hie⟩ := huniq r' i' hr' hi1 hi2 hd
    refine ⟨hre, ?_⟩
    rcases hie with h | h
    · omega
    · exact h

/-- In every round, exactly one rotation position holds the last original
index `m` (where the bye placeholder sits when the roster was padded). -/
theorem solve_last {m : Nat} (hm : 0 < m) (s : Nat) :
    ∃ k, 1 ≤ k ∧ k ≤ m ∧ idxAt m s k = m ∧
      ∀ k', k' ≤ m → idxAt m s k' = m → k' = k := by
  haveI : NeZero m := ⟨by omega⟩
  set z : ZMod m := ((m - 1 : Nat) : ZMod m) - (s : ZMod m) with hz
  have hzv : z.val < m := ZMod.val_lt z
  have hsat : idxAt m s (z.val + 1) = m := by
    unfold idxAt
    rw [if_neg (by omega)]
    have hmod : (z.val + 1 - 1 + s) % m = m - 1 := by
      rw [show z.val + 1 - 1 + s = z.val + s from by omega,
        natmod_eq_iff hm (by omega : m - 1 < m)]
      push_cast [val_natCast_self hm z]
      rw [hz]
      ring
    omega
  exact ⟨z.val + 1, by omega, by omega, hsat,
    fun k' hk' hik => idxAt_inj hm s hk' (by omega) (hik.trans hsat.symm)⟩

/-! ## Counting utilities -/

theorem countP_filterMap_ite {α β : Type} (l : List α) (cond : α → Prop)
    [DecidablePred cond] (g : α → β) (Q : β → Bool) :
    ((l.filterMap fun a => if cond a then none else some (g a)).countP Q)
      = l.countP fun a => !(decide (cond a)) && Q (g a) := by
  induction l with
  | nil => rfl
  | cons x xs ih =>
    by_cases hx : cond x
    · rw [List.filterMap_cons_none (by rw [if_pos hx]), List.countP_cons, ih]
      simp [hx]
    · rw [List.filterMap_cons_some (by rw [if_neg hx]), List.countP_cons,
        List.countP_cons, ih]
      simp [hx]

theorem length_filterMap_ite {α β : Type} (l : List α) (cond : α → Prop)
    [DecidablePred cond] (g : α → β) :
    (l.filterMap fun a => if cond a then none else some (g a)).length
      = l.countP fun a => !(decide (cond a)) := by
  have h := countP_filterMap_ite l cond g (fun _ => true)
  rw [List.countP_true] at h
  rw [h]
  apply List.countP_congr
  intro a _
  simp

theorem countP_range_eq_one {p : Nat → Bool} {k i0 : Nat} (h0 : i0 < k)
    (hp : p i0 = true) (hu : ∀ j, j < k → p j = true → j = i0) :
    (List.range k).countP p = 1 := by
  have hcong : (List.range k).countP p
      = (List.range k).countP fun j => j == i0 := by
    apply List.countP_congr
    intro j hj
    have hjk := List.mem_range.mp hj
    constructor
    · intro hpj
      simp [hu j hjk hpj]
    · intro hj0
      have : j = i0 := by simpa using hj0
      rw [this]
      exact hp
  rw [hcong]
  exact List.count_eq_one_of_mem (List.nodup_range k) (List.mem_range.mpr h0)

theorem countP_range_eq_zero {p : Nat → Bool} {k : Nat}
    (h : ∀ j, j < k → p j = false) : (List.range k).countP p = 0 :=
  List.countP_eq_zero.mpr fun j hj => by
    rw [h j (List.mem_range.mp hj)]
    simp

theorem countP_range_le_one {p : Nat → Bool} {k : Nat}
    (hu : ∀ j1 j2, j1 < k → j2 < k → p j1 = true → p j2 = true → j1 = j2) :
    (List.range k).countP p ≤ 1 := by
  by_cases hex : ∃ i0, i0 < k ∧ p i0 = true
  · obtain ⟨i0, h0, hp⟩ := hex
    rw [countP_range_eq_one h0 hp fun j hj hpj => hu j i0 hj h0 hpj hp]
  · push_neg at hex
    rw [countP_range_eq_zero fun j hj =>
      Bool.not_eq_true _ ▸ Bool.eq_false_iff.mpr fun ht => (hex j hj) ht]
    omega

/-! ## The schedule by rounds -/

/-- The fixtures emitted for one round of the preview loop. -/
def roundFixList (n : Nat) (start : DateTime) (r : Nat) (rot : List Team) :
    List FixturePreview :=
  (roundPairs n rot).map fun p =>
    { round := r + 1, home := p.1, away := p.2,
      scheduledAt := start.addDays (r * 7) }

theorem buildPreview_succ (n : Nat) (start : DateTime) (fuel r0 : Nat)
    (rot : List Team) :
    buildPreview n start (fuel + 1) r0 rot =
      roundFixList n start r0 rot
        ++ buildPreview n start fuel (r0 + 1) (rotateOnce rot) := rfl

/-- Any `countP` over the round loop is the sum of the per-round counts. -/
theorem countP_buildPreview (n : Nat) (start : DateTime)
    (P : FixturePreview → Bool) :
    ∀ fuel r0 rot, (buildPreview n start fuel r0 rot).countP P =
      ∑ j ∈ Finset.range fuel,
        (roundFixList n start (r0 + j) (rotIter rot j)).countP P
  | 0, r0, rot => by simp [buildPreview]
  | fuel + 1, r0, rot => by
    rw [buildPreview_succ, List.countP_append,
      countP_buildPreview n start P fuel (r0 + 1) (rotateOnce rot),
      Finset.sum_range_succ' _ fuel]
    have hsum : ∀ j ∈ Finset.range fuel,
        (roundFixList n start (r0 + 1 + j) (rotIter (rotateOnce rot) j)).countP P
          = (roundFixList n start (r0 + (j + 1)) (rotIter rot (j + 1))).countP P := by
      intro j _
      rw [rotIter_rotateOnce, show r0 + 1 + j = r0 + (j + 1) from by omega]
    rw [Finset.sum_congr rfl hsum]
    have h0 : (roundFixList n start (r0 + 0) (rotIter rot 0)).countP P
        = (roundFixList n start r0 rot).countP P := rfl
    omega

/-- Each round's fixture list sits inside the full loop output. -/
theorem roundFixList_subset (n : Nat) (start : DateTime) :
    ∀ fuel r0 rot j f, j < fuel →
      f ∈ roundFixList n start (r0 + j) (rotIter rot j) →
      f ∈ buildPreview n start fuel r0 rot
  | 0, _, _, _, _, hj, _ => absurd hj (Nat.not_lt_zero _)
  | fuel + 1, r0, rot, j, f, hj, hf => by
    rw [buildPreview_succ, List.mem_append]
    cases j with
    | zero => exact Or.inl hf
    | succ j' =>
      right
      apply roundFixList_subset n start fuel (r0 + 1) (rotateOnce rot) j' f (by omega)
      rw [rotIter_rotateOnce, show r0 + 1 + j' = r0 + (j' + 1) from by omega]
      exact hf

/-- The pair list of round `r`, rewritten through the closed form of the
rotation: slot `i` pairs the items at original indices
`idxAt m s i` and `idxAt m s (m - i)` with `s = r * (m - 1)`. -/
theorem roundPairs_rotIter (x : Team) (rest : List Team) (r : Nat) :
    roundPairs (rest.length + 1) (rotIter (x :: rest) r) =
      (List.range ((rest.length + 1) / 2)).filterMap fun i =>
        if (itemAt x rest (idxAt rest.length (r * (rest.length - 1)) i)).id = "BYE" ∨
            (itemAt x rest
              (idxAt rest.length (r * (rest.length - 1)) (rest.length - i))).id = "BYE"
          then none
          else some (itemAt x rest (idxAt rest.length (r * (rest.length - 1)) i),
            itemAt x rest
              (idxAt rest.length (r * (rest.length - 1)) (rest.length - i))) := by
  unfold roundPairs
  apply List.filterMap_congr
  intro i hi
  have hih : i < (rest.length + 1) / 2 := List.mem_range.mp hi
  rw [show rest.length + 1 - 1 - i = rest.length - i from by omega,
    rotIter_getElem x rest r i (by omega),
    rotIter_getElem x rest r (rest.length - i) (by omega)]

/-- The home-side item of slot `i` in round `r` (in closed form). -/
def slotHome (x : Team) (rest : List Team) (r i : Nat) : Team :=
  itemAt x rest (idxAt rest.length (r * (rest.length - 1)) i)

/-- The away-side item of slot `i` in round `r` (in closed form). -/
def slotAway (x : Team) (rest : List Team) (r i : Nat) : Team :=
  itemAt x rest (idxAt rest.length (r * (rest.length - 1)) (rest.length - i))

/-- Any per-round fixture count, as a count over the round's slots. -/
theorem countP_roundFixList_slots (x : Team) (rest : List Team)
    (start : DateTime) (r : Nat) (P : FixturePreview → Bool) :
    (roundFixList (rest.length + 1) start r (rotIter (x :: rest) r)).countP P
      = (List.range ((rest.length + 1) / 2)).countP fun i =>
          !(decide ((slotHome x rest r i).id = "BYE" ∨
              (slotAway x rest r i).id = "BYE")) &&
            P { round := r + 1, home := slotHome x rest r i,
                away := slotAway x rest r i,
                scheduledAt := start.addDays (r * 7) } := by
  unfold roundFixList
  rw [List.countP_map, roundPairs_rotIter, countP_filterMap_ite]
  rfl

/-- The unordered-pair match predicate on fixtures: the fixture's two sides
carry exactly the identifiers of `t` and `u`, in either orientation. -/
def pairPred (t u : Team) : FixturePreview → Bool := fun f =>
  decide ((f.home.id = t.id ∧ f.away.id = u.id) ∨
    (f.home.id = u.id ∧ f.away.id = t.id))

/-- A slot emits the unordered pair of original indices `{p, q}` iff its two
closed-form indices are `{p, q}` — under the injectivity of identifiers on
non-bye items. -/
theorem slot_hit_iff (x : Team) (rest : List Team) (start : DateTime)
    (r i : Nat)
    (HInj : ∀ j1 j2, j1 ≤ rest.length → j2 ≤ rest.length →
      (itemAt x rest j1).id ≠ "BYE" →
      (itemAt x rest j1).id = (itemAt x rest j2).id → j1 = j2)
    {p q : Nat} (hp : p ≤ rest.length) (hq : q ≤ rest.length)
    (hpB : (itemAt x rest p).id ≠ "BYE") (hqB : (itemAt x rest q).id ≠ "BYE")
    (hm : 0 < rest.length) :
    ((!(decide ((slotHome x rest r i).id = "BYE" ∨
          (slotAway x rest r i).id = "BYE")) &&
        pairPred (itemAt x rest p) (itemAt x rest q)
          { round := r + 1, home := slotHome x rest r i,
            away := slotAway x rest r i,
            scheduledAt := start.addDays (r * 7) }) = true)
      ↔ ((idxAt rest.length (r * (rest.length - 1)) i = p ∧
            idxAt rest.length (r * (rest.length - 1)) (rest.length - i) = q) ∨
          (idxAt rest.length (r * (rest.length - 1)) i = q ∧
            idxAt rest.length (r * (rest.length - 1)) (rest.length - i) = p)) := by
  have hA : idxAt rest.length (r * (rest.length - 1)) i ≤ rest.length :=
    idxAt_le hm _ _
  have hB : idxAt rest.length (r * (rest.length - 1)) (rest.length - i)
      ≤ rest.length := idxAt_le hm _ _
  simp only [pairPred, Bool.and_eq_true, Bool.not_eq_true',
    decide_eq_false_iff_not, decide_eq_true_eq]
  constructor
  · rintro ⟨hskip, hmatch⟩
    push_neg at hskip
    rcases hmatch with ⟨h1, h2⟩ | ⟨h1, h2⟩
    · exact Or.inl ⟨HInj _ p hA hp hskip.1 h1, HInj _ q hB hq hskip.2 h2⟩
    · exact Or.inr ⟨HInj _ q hA hq hskip.1 h1, HInj _ p hB hp hskip.2 h2⟩
  · rintro (⟨h1, h2⟩ | ⟨h1, h2⟩)
    · unfold slotHome slotAway
      rw [h1, h2]
      exact ⟨by push_neg; exact ⟨hpB, hqB⟩, Or.inl ⟨rfl, rfl⟩⟩
    · unfold slotHome slotAway
      rw [h1, h2]
      exact ⟨by push_neg; exact ⟨hqB, hpB⟩, Or.inr ⟨rfl, rfl⟩⟩

theorem idxAt_zero (m s : Nat) : idxAt m s 0 = 0 := rfl

theorem idxAt_pos_eq {m s k : Nat} (hk : 1 ≤ k) :
    idxAt m s k = (k - 1 + s) % m + 1 := by
  unfold idxAt
  rw [if_neg (by omega)]

/-- Joint existence and uniqueness of the `(round, slot)` emitting a given
unordered pair of original indices `{p, q}`. -/
theorem index_hit_solution {m : Nat} (hm2 : m % 2 = 1) {p q : Nat}
    (hp : p ≤ m) (hq : q ≤ m) (hpq : p ≠ q) :
    ∃ rs is, rs < m ∧ is < (m + 1) / 2 ∧
      ((idxAt m (rs * (m - 1)) is = p ∧
          idxAt m (rs * (m - 1)) (m - is) = q) ∨
        (idxAt m (rs * (m - 1)) is = q ∧
          idxAt m (rs * (m - 1)) (m - is) = p)) ∧
      ∀ r i, r < m → i < (m + 1) / 2 →
        ((idxAt m (r * (m - 1)) i = p ∧ idxAt m (r * (m - 1)) (m - i) = q) ∨
          (idxAt m (r * (m - 1)) i = q ∧ idxAt m (r * (m - 1)) (m - i) = p)) →
        r = rs ∧ i = is := by
  have hm : 0 < m := by omega
  have hsub : ∀ i, i < (m + 1) / 2 → 1 ≤ m - i := by omega
  rcases Nat.eq_zero_or_pos p with hp0 | hp1
  · -- p = 0: the pair is emitted by slot 0 of exactly one round
    subst hp0
    have hq1 : 1 ≤ q := by omega
    obtain ⟨rs, hrs, heq, huni⟩ := solve_head hm (q - 1) (by omega)
    refine ⟨rs, 0, hrs, by omega, ?_, ?_⟩
    · refine Or.inl ⟨idxAt_zero m _, ?_⟩
      rw [show m - 0 = m from rfl, idxAt_pos_eq (by omega)]
      omega
    · intro r i hr hi hhit
      have hmi : 1 ≤ m - i := hsub i hi
      rcases hhit with ⟨h1, h2⟩ | ⟨h1, h2⟩
      · have hi0 : i = 0 := (idxAt_eq_zero_iff _ _).mp h1
        subst hi0
        rw [show m - 0 = m from rfl, idxAt_pos_eq (by omega)] at h2
        exact ⟨huni r hr (by omega), rfl⟩
      · rw [idxAt_pos_eq hmi] at h2
        omega
  · rcases Nat.eq_zero_or_pos q with hq0 | hq1
    · -- q = 0: symmetric head case
      subst hq0
      obtain ⟨rs, hrs, heq, huni⟩ := solve_head hm (p - 1) (by omega)
      refine ⟨rs, 0, hrs, by omega, ?_, ?_⟩
      · refine Or.inr ⟨idxAt_zero m _, ?_⟩
        rw [show m - 0 = m from rfl, idxAt_pos_eq (by omega)]
        omega
      · intro r i hr hi hhit
        have hmi : 1 ≤ m - i := hsub i hi
        rcases hhit with ⟨h1, h2⟩ | ⟨h1, h2⟩
        · rw [idxAt_pos_eq hmi] at h2
          omega
        · have hi0 : i = 0 := (idxAt_eq_zero_iff _ _).mp h1
          subst hi0
          rw [show m - 0 = m from rfl, idxAt_pos_eq (by omega)] at h2
          exact ⟨huni r hr (by omega), rfl⟩
    · -- both tail indices: the rest-slot solver
      obtain ⟨rs, is, hrs, his1, his2, heq, huni⟩ :=
        solve_rest hm2 (p - 1) (q - 1) (by omega) (by omega) (by omega)
      refine ⟨rs, is, hrs, his2, ?_, ?_⟩
      · have hmis : 1 ≤ m - is := hsub is his2
        rcases heq with ⟨h1, h2⟩ | ⟨h1, h2⟩
        · refine Or.inl ⟨?_, ?_⟩
          · rw [idxAt_pos_eq his1]; omega
          · rw [idxAt_pos_eq hmis]
            rw [show m - is - 1 + rs * (m - 1) = m - is - 1 + rs * (m - 1) from rfl] at h2
            omega
        · refine Or.inr ⟨?_, ?_⟩
          · rw [idxAt_pos_eq his1]; omega
          · rw [idxAt_pos_eq hmis]; omega
      · intro r i hr hi hhit
        have hmi : 1 ≤ m - i := hsub i hi
        have hi1 : 1 ≤ i := by
          by_contra h0
          have hi0 : i = 0 := by omega
          subst hi0
          rcases hhit with ⟨h1, -⟩ | ⟨h1, -⟩ <;>
            rw [idxAt_zero] at h1 <;> omega
        have := huni r i hr hi1 hi
        apply this
        rcases hhit with ⟨h1, h2⟩ | ⟨h1, h2⟩
        · left
          rw [idxAt_pos_eq hi1] at h1
          rw [idxAt_pos_eq hmi] at h2
          constructor <;> omega
        · right
          rw [idxAt_pos_eq hi1] at h1
          rw [idxAt_pos_eq hmi] at h2
          constructor <;> omega

/-- Every fixture of the loop output comes from some round segment. -/
theorem mem_buildPreview_decomp (n : Nat) (start : DateTime) :
    ∀ fuel r0 rot f, f ∈ buildPreview n start fuel r0 rot →
      ∃ j, j < fuel ∧ f ∈ roundFixList n start (r0 + j) (rotIter rot j)
  | 0, _, _, _, hf => absurd hf (List.not_mem_nil _)
  | fuel + 1, r0, rot, f, hf => by
    rw [buildPreview_succ, List.mem_append] at hf
    rcases hf with hf | hf
    · exact ⟨0, by omega, hf⟩
    · obtain ⟨j', hj', hf'⟩ :=
        mem_buildPreview_decomp n start fuel (r0 + 1) (rotateOnce rot) f hf
      refine ⟨j' + 1, by omega, ?_⟩
      rw [show r0 + (j' + 1) = r0 + 1 + j' from by omega, ← rotIter_rotateOnce]
      exact hf'

/-- Every fixture of a round comes from a slot, in closed form. -/
theorem mem_roundFixList_slots (x : Team) (rest : List Team)
    (start : DateTime) (r : Nat) (f : FixturePreview)
    (hf : f ∈ roundFixList (rest.length + 1) start r (rotIter (x :: rest) r)) :
    ∃ i, i < (rest.length + 1) / 2 ∧
      ¬((slotHome x rest r i).id = "BYE" ∨ (slotAway x rest r i).id = "BYE") ∧
      f = { round := r + 1, home := slotHome x rest r i,
            away := slotAway x rest r i,
            scheduledAt := start.addDays (r * 7) } := by
  simp only [slotHome, slotAway]
  unfold roundFixList at hf
  rw [roundPairs_rotIter] at hf
  obtain ⟨p, hp, rfl⟩ := List.mem_map.mp hf
  obtain ⟨i, hi, hpi⟩ := List.mem_filterMap.mp hp
  by_cases hc :
      (itemAt x rest (idxAt rest.length (r * (rest.length - 1)) i)).id = "BYE" ∨
        (itemAt x rest
          (idxAt rest.length (r * (rest.length - 1)) (rest.length - i))).id = "BYE"
  · rw [if_pos hc] at hpi
    exact absurd hpi (by simp)
  · rw [if_neg hc] at hpi
    obtain rfl := Option.some.inj hpi
    exact ⟨i, List.mem_range.mp hi, hc, rfl⟩

/-- Conversely, every non-skipped slot contributes its fixture to the round. -/
theorem slot_mem_roundFixList (x : Team) (rest : List Team)
    (start : DateTime) (r i : Nat) (hi : i < (rest.length + 1) / 2)
    (hskip : ¬((slotHome x rest r i).id = "BYE" ∨
      (slotAway x rest r i).id = "BYE")) :
    ({ round := r + 1, home := slotHome x rest r i,
       away := slotAway x rest r i,
       scheduledAt := start.addDays (r * 7) } : FixturePreview)
      ∈ roundFixList (rest.length + 1) start r (rotIter (x :: rest) r) := by
  simp only [slotHome, slotAway] at hskip ⊢
  unfold roundFixList
  rw [roundPairs_rotIter]
  apply List.mem_map.mpr
  refine ⟨(itemAt x rest (idxAt rest.length (r * (rest.length - 1)) i),
    itemAt x rest (idxAt rest.length (r * (rest.length - 1)) (rest.length - i))),
    ?_, rfl⟩
  apply List.mem_filterMap.mpr
  exact ⟨i, List.mem_range.mpr hi, by rw [if_neg hskip]⟩

/-! ## Shape of the padded roster -/

theorem itemAt_eq_getElem (x : Team) (rest : List Team) {j : Nat}
    (h : j < (x :: rest).length) : itemAt x rest j = (x :: rest)[j] :=
  List.getD_eq_getElem (x :: rest) x h

theorem paddedItems_even {teams : List Team} (h : teams.length % 2 = 0) :
    paddedItems teams = teams := by
  unfold paddedItems
  rw [if_neg (by omega)]

theorem paddedItems_odd {teams : List Team} (h : teams.length % 2 = 1) :
    paddedItems teams = teams ++ [byeTeam] := by
  unfold paddedItems
  rw [if_pos h]

/-- Identifier injectivity on the items, from distinctness of all
identifiers. -/
theorem HInj_of_nodup (x : Team) (rest : List Team)
    (hnd : ((x :: rest).map Team.id).Nodup) :
    ∀ j1 j2, j1 ≤ rest.length → j2 ≤ rest.length →
      (itemAt x rest j1).id ≠ "BYE" →
      (itemAt x rest j1).id = (itemAt x rest j2).id → j1 = j2 := by
  intro j1 j2 h1 h2 _ hid
  have hb1 : j1 < (x :: rest).length := by simp; omega
  have hb2 : j2 < (x :: rest).length := by simp; omega
  have hm1 : j1 < ((x :: rest).map Team.id).length := by simpa using hb1
  have hm2 : j2 < ((x :: rest).map Team.id).length := by simpa using hb2
  have heq : ((x :: rest).map Team.id)[j1] = ((x :: rest).map Team.id)[j2] := by
    rw [List.getElem_map, List.getElem_map, ← itemAt_eq_getElem x rest hb1,
      ← itemAt_eq_getElem x rest hb2]
    exact hid
  exact (List.Nodup.getElem_inj_iff hnd).mp heq

theorem itemAt_append_lt (x : Team) (ts : List Team) {j : Nat}
    (h : j < (x :: ts).length) : itemAt x (ts ++ [byeTeam]) j = (x :: ts)[j] := by
  have h2 : j < (x :: (ts ++ [byeTeam])).length := by
    simp only [List.length_cons, List.length_append] at h ⊢
    omega
  rw [itemAt_eq_getElem x (ts ++ [byeTeam]) h2]
  exact List.getElem_append_left h

theorem itemAt_append_eq (x : Team) (ts : List Team) {j : Nat}
    (h : j ≤ ts.length) : itemAt x (ts ++ [byeTeam]) j = itemAt x ts j := by
  rw [itemAt_append_lt x ts (by simp; omega), itemAt_eq_getElem x ts (by simp; omega)]

theorem itemAt_append_last (x : Team) (ts : List Team) :
    itemAt x (ts ++ [byeTeam]) (ts.length + 1) = byeTeam := by
  rw [itemAt_eq_getElem x (ts ++ [byeTeam]) (by simp)]
  exact List.getElem_concat_length (x :: ts) byeTeam (ts.length + 1) (by simp)
    (by simp)

/-- Identifier injectivity on the padded items, odd case: distinctness of the
roster identifiers suffices, even when the roster itself uses `'BYE'`. -/
theorem HInj_append_bye (x : Team) (ts : List Team)
    (hnd : ((x :: ts).map Team.id).Nodup) :
    ∀ j1 j2, j1 ≤ (ts ++ [byeTeam]).length → j2 ≤ (ts ++ [byeTeam]).length →
      (itemAt x (ts ++ [byeTeam]) j1).id ≠ "BYE" →
      (itemAt x (ts ++ [byeTeam]) j1).id = (itemAt x (ts ++ [byeTeam]) j2).id →
      j1 = j2 := by
  intro j1 j2 h1 h2 hB hid
  have hL : (ts ++ [byeTeam]).length = ts.length + 1 := by simp
  have hj1 : j1 ≤ ts.length := by
    by_contra hgt
    have he : j1 = ts.length + 1 := by omega
    rw [he, itemAt_append_last] at hB
    exact hB rfl
  by_cases hj2 : j2 ≤ ts.length
  · rw [itemAt_append_eq x ts hj1, itemAt_append_eq x ts hj2] at hid
    rw [itemAt_append_eq x ts hj1] at hB
    exact HInj_of_nodup x ts hnd j1 j2 hj1 hj2 hB hid
  · have he : j2 = ts.length + 1 := by omega
    rw [he, itemAt_append_last] at hid
    rw [itemAt_append_eq x ts hj1] at hid hB
    exact absurd hid hB

/-- Without a team named `'BYE'`, no item of the unpadded roster has the bye
identifier. -/
theorem itemAt_ne_bye (x : Team) (rest : List Team)
    (hbye : "BYE" ∉ (x :: rest).map Team.id) :
    ∀ j, j ≤ rest.length → (itemAt x rest j).id ≠ "BYE" := by
  intro j hj h
  apply hbye
  rw [← h]
  apply List.mem_map_of_mem Team.id
  rw [itemAt_eq_getElem x rest (by simp; omega)]
  exact List.getElem_mem _

/-- Exactly-once coverage over the whole loop: for two distinct non-bye item
indices, exactly one fixture of the generated schedule matches their
unordered pair of identifiers. -/
theorem countP_pair_build (x : Team) (rest : List Team) (start : DateTime)
    (hm2 : rest.length % 2 = 1)
    (HInj : ∀ j1 j2, j1 ≤ rest.length → j2 ≤ rest.length →
      (itemAt x rest j1).id ≠ "BYE" →
      (itemAt x rest j1).id = (itemAt x rest j2).id → j1 = j2)
    (p q : Nat) (hp : p ≤ rest.length) (hq : q ≤ rest.length) (hpq : p ≠ q)
    (hpB : (itemAt x rest p).id ≠ "BYE") (hqB : (itemAt x rest q).id ≠ "BYE") :
    (buildPreview (rest.length + 1) start rest.length 0 (x :: rest)).countP
      (pairPred (itemAt x rest p) (itemAt x rest q)) = 1 := by
  have hm : 0 < rest.length := by omega
  rw [countP_buildPreview]
  obtain ⟨rs, is, hrs, his, hhit, huni⟩ := index_hit_solution hm2 hp hq hpq
  have hterm : ∀ j ∈ Finset.range rest.length,
      (roundFixList (rest.length + 1) start (0 + j)
          (rotIter (x :: rest) j)).countP
        (pairPred (itemAt x rest p) (itemAt x rest q))
      = if j = rs then 1 else 0 := by
    intro j hj
    have hjm : j < rest.length := Finset.mem_range.mp hj
    rw [Nat.zero_add, countP_roundFixList_slots]
    by_cases hjr : j = rs
    · subst hjr
      rw [if_pos rfl]
      refine countP_range_eq_one his ?_ ?_
      · exact (slot_hit_iff x rest start j is HInj hp hq hpB hqB hm).mpr hhit
      · intro i hi hpi
        exact (huni j i hjm hi
          ((slot_hit_iff x rest start j i HInj hp hq hpB hqB hm).mp hpi)).2
    · rw [if_neg hjr]
      apply countP_range_eq_zero
      intro i hi
      apply Bool.eq_false_iff.mpr
      intro ht
      exact hjr (huni j i hjm hi
        ((slot_hit_iff x rest start j i HInj hp hq hpB hqB hm).mp ht)).1
  rw [Finset.sum_congr rfl hterm,
    Finset.sum_ite_eq' (Finset.range rest.length) rs (fun _ => 1),
    if_pos (Finset.mem_range.mpr hrs)]

theorem countP_range_not_eq {k i0 : Nat} (h : i0 < k) :
    (List.range k).countP (fun i => !(decide (i = i0))) = k - 1 := by
  have hone : (List.range k).countP (fun i => decide (i = i0)) = 1 :=
    countP_range_eq_one h (by simp) (fun j _ hj => by simpa using hj)
  have hsplit := List.length_eq_countP_add_countP
    (fun i => decide (i = i0)) (List.range k)
  rw [List.length_range, hone] at hsplit
  have hcong : (List.range k).countP
      (fun a => decide ¬((fun i => decide (i = i0)) a = true))
      = (List.range k).countP (fun i => !(decide (i = i0))) := by
    apply List.countP_congr
    intro a _
    simp
  rw [hcong] at hsplit
  omega

/-- In a round of a fully real (no-bye) rotation, every slot emits: the round
has `(m+1)/2` fixtures. -/
theorem length_roundFixList_nobye (x : Team) (rest : List Team)
    (start : DateTime) (r : Nat) (hm : 0 < rest.length)
    (hNB : ∀ j, j ≤ rest.length → (itemAt x rest j).id ≠ "BYE") :
    (roundFixList (rest.length + 1) start r (rotIter (x :: rest) r)).length
      = (rest.length + 1) / 2 := by
  unfold roundFixList
  rw [List.length_map, roundPairs_rotIter, length_filterMap_ite]
  have hall : ∀ i ∈ List.range ((rest.length + 1) / 2),
      (!(decide ((itemAt x rest (idxAt rest.length (r * (rest.length - 1)) i)).id = "BYE" ∨
        (itemAt x rest
          (idxAt rest.length (r * (rest.length - 1)) (rest.length - i))).id = "BYE"))) = true := by
    intro i _
    simp only [Bool.not_eq_true', decide_eq_false_iff_not]
    push_neg
    exact ⟨hNB _ (idxAt_le hm _ _), hNB _ (idxAt_le hm _ _)⟩
  rw [List.countP_eq_length.mpr hall, List.length_range]

/-- In a round of a bye-padded rotation (bye exactly at the last original
index), exactly one slot is skipped: the round has `(m+1)/2 - 1` fixtures. -/
theorem length_roundFixList_bye (x : Team) (rest : List Team)
    (start : DateTime) (r : Nat) (hm2 : rest.length % 2 = 1)
    (hOnly : ∀ j, j ≤ rest.length →
      ((itemAt x rest j).id = "BYE" ↔ j = rest.length)) :
    (roundFixList (rest.length + 1) start r (rotIter (x :: rest) r)).length
      = (rest.length + 1) / 2 - 1 := by
  have hm : 0 < rest.length := by omega
  obtain ⟨k, hk1, hkm, hkeq, hkuni⟩ := solve_last hm (r * (rest.length - 1))
  set istar := if k < (rest.length + 1) / 2 then k else rest.length - k with histar
  have histar_lt : istar < (rest.length + 1) / 2 := by
    rw [histar]
    split <;> omega
  have hskip_iff : ∀ i, i < (rest.length + 1) / 2 →
      (((itemAt x rest (idxAt rest.length (r * (rest.length - 1)) i)).id = "BYE" ∨
        (itemAt x rest
          (idxAt rest.length (r * (rest.length - 1)) (rest.length - i))).id = "BYE")
        ↔ i = istar) := by
    intro i hi
    have hb1 := idxAt_le hm (r * (rest.length - 1)) i
    have hb2 := idxAt_le hm (r * (rest.length - 1)) (rest.length - i)
    rw [hOnly _ hb1, hOnly _ hb2]
    constructor
    · rintro (h | h)
      · have := hkuni i (by omega) h
        rw [histar]
        rw [if_pos (by omega)]
        omega
      · have := hkuni (rest.length - i) (by omega) h
        rw [histar]
        split <;> omega
    · intro hieq
      subst hieq
      rw [histar]
      split
      · left
        exact hkeq
      · right
        rw [show rest.length - (rest.length - k) = k from by omega]
        exact hkeq
  unfold roundFixList
  rw [List.length_map, roundPairs_rotIter, length_filterMap_ite]
  have hcong : (List.range ((rest.length + 1) / 2)).countP
      (fun i => !(decide ((itemAt x rest (idxAt rest.length (r * (rest.length - 1)) i)).id = "BYE" ∨
        (itemAt x rest
          (idxAt rest.length (r * (rest.length - 1)) (rest.length - i))).id = "BYE")))
      = (List.range ((rest.length + 1) / 2)).countP
          (fun i => !(decide (i = istar))) := by
    apply List.countP_congr
    intro i hi
    have := hskip_iff i (List.mem_range.mp hi)
    simp only [Bool.not_eq_true', decide_eq_false_iff_not]
    exact ⟨fun hni => fun he => hni (this.mpr he), fun hni => fun hs => hni (this.mp hs)⟩
  rw [hcong, countP_range_not_eq histar_lt]

/-- The length of the loop output when every round emits the same number of
fixtures. -/
theorem length_buildPreview_const (n : Nat) (start : DateTime) (c : Nat)
    (fuel r0 : Nat) (rot : List Team)
    (hcon : ∀ j, j < fuel →
      (roundFixList n start (r0 + j) (rotIter rot j)).length = c) :
    (buildPreview n start fuel r0 rot).length = fuel * c := by
  have h := countP_buildPreview n start (fun _ => true) fuel r0 rot
  rw [List.countP_true] at h
  rw [h, Finset.sum_congr rfl (fun j hj => hcon j (Finset.mem_range.mp hj)),
    Finset.sum_const, Finset.card_range, smul_eq_mul]

/-- The identifiers of the padded roster remain pairwise distinct when the
roster is bye-free. -/
theorem padded_ids_nodup (x : Team) (ts : List Team)
    (hnd : ((x :: ts).map Team.id).Nodup)
    (hbye : "BYE" ∉ (x :: ts).map Team.id) :
    ((x :: (ts ++ [byeTeam])).map Team.id).Nodup := by
  have he : (x :: (ts ++ [byeTeam])) = (x :: ts) ++ [byeTeam] := rfl
  rw [he, List.map_append, List.nodup_append]
  refine ⟨hnd, by simp, ?_⟩
  intro a ha hb
  have hab : a = "BYE" := by simpa [byeTeam] using hb
  subst hab
  exact hbye ha

/-- C1 (amended): for every roster of at least two teams with
pairwise-distinct identifiers none of which is the literal `'BYE'`, the
generated schedule contains every unordered pair of distinct teams as a
matchup exactly once, and has `n·(n-1)/2` matchups in total. -/
theorem full_coverage (teams : List Team) (now : DateTime)
    (h2 : 2 ≤ teams.length) (hnd : (teams.map Team.id).Nodup)
    (hbye : "BYE" ∉ teams.map Team.id) :
    (∀ t ∈ teams, ∀ u ∈ teams, t.id ≠ u.id →
      (generateRoundRobinPreview teams now).countP (pairPred t u) = 1) ∧
      (generateRoundRobinPreview teams now).length
        = teams.length * (teams.length - 1) / 2 := by
  obtain ⟨x, ts, rfl⟩ : ∃ x' ts', teams = x' :: ts' := by
    cases teams with
    | nil => simp at h2
    | cons a l => exact ⟨a, l, rfl⟩
  rw [generateRoundRobinPreview_eq _ now h2]
  by_cases hpar : (x :: ts).length % 2 = 1
  · -- odd roster: padded with one bye
    have hpad : paddedItems (x :: ts) = x :: (ts ++ [byeTeam]) := by
      rw [paddedItems_odd hpar]
      rfl
    rw [hpad, List.length_cons, Nat.add_sub_cancel]
    have hm2 : (ts ++ [byeTeam]).length % 2 = 1 := by
      simp only [List.length_cons] at hpar
      simpa using hpar
    have HInj := HInj_of_nodup x (ts ++ [byeTeam]) (padded_ids_nodup x ts hnd hbye)
    have hOnly : ∀ j, j ≤ (ts ++ [byeTeam]).length →
        ((itemAt x (ts ++ [byeTeam]) j).id = "BYE" ↔
          j = (ts ++ [byeTeam]).length) := by
      intro j hj
      have hl : (ts ++ [byeTeam]).length = ts.length + 1 := by simp
      constructor
      · intro hB
        by_contra hne
        have hjt : j ≤ ts.length := by omega
        rw [itemAt_append_eq x ts hjt] at hB
        exact itemAt_ne_bye x ts hbye j hjt hB
      · intro he
        rw [he, hl, itemAt_append_last]
        rfl
    constructor
    · intro t ht u hu htu
      obtain ⟨pt, hptl, hpte⟩ := List.mem_iff_getElem.mp ht
      obtain ⟨qu, hqul, hque⟩ := List.mem_iff_getElem.mp hu
      have hptr : pt ≤ ts.length := by simp at hptl; omega
      have hqur : qu ≤ ts.length := by simp at hqul; omega
      have hti : itemAt x (ts ++ [byeTeam]) pt = t := by
        rw [itemAt_append_eq x ts hptr, itemAt_eq_getElem x ts (by simp; omega)]
        exact hpte
      have hui : itemAt x (ts ++ [byeTeam]) qu = u := by
        rw [itemAt_append_eq x ts hqur, itemAt_eq_getElem x ts (by simp; omega)]
        exact hque
      have hpq : pt ≠ qu := by
        intro he
        apply htu
        rw [← hti, ← hui, he]
      have htB : t.id ≠ "BYE" := fun hB =>
        hbye (hB ▸ List.mem_map_of_mem Team.id ht)
      have huB : u.id ≠ "BYE" := fun hB =>
        hbye (hB ▸ List.mem_map_of_mem Team.id hu)
      have hc := countP_pair_build x (ts ++ [byeTeam]) (startDate now) hm2 HInj
        pt qu (by simp; omega) (by simp; omega) hpq
        (by rw [hti]; exact htB) (by rw [hui]; exact huB)
      rw [hti, hui] at hc
      exact hc
    · have hroundlen : ∀ j, j < (ts ++ [byeTeam]).length →
          (roundFixList ((ts ++ [byeTeam]).length + 1) (startDate now) (0 + j)
            (rotIter (x :: (ts ++ [byeTeam])) j)).length
          = ((ts ++ [byeTeam]).length + 1) / 2 - 1 := by
        intro j hj
        rw [Nat.zero_add]
        exact length_roundFixList_bye x (ts ++ [byeTeam]) (startDate now) j hm2 hOnly
      rw [length_buildPreview_const _ _ _ _ _ _ hroundlen]
      have hl : (ts ++ [byeTeam]).length = ts.length + 1 := by simp
      rw [hl, List.length_cons, Nat.add_sub_cancel]
      have hev : ts.length % 2 = 0 := by
        simp only [List.length_cons] at hpar
        omega
      obtain ⟨h, hh⟩ : ∃ h, ts.length = 2 * h := ⟨ts.length / 2, by omega⟩
      rw [show (ts.length + 1 + 1) / 2 - 1 = h from by omega,
        show (ts.length + 1) * ts.length = 2 * ((ts.length + 1) * h) from by
          rw [hh]; ring,
        Nat.mul_div_cancel_left _ (by norm_num)]
  · -- even roster: no padding
    have hpar0 : (x :: ts).length % 2 = 0 := by omega
    rw [paddedItems_even hpar0, List.length_cons, Nat.add_sub_cancel]
    have hm2 : ts.length % 2 = 1 := by
      simp only [List.length_cons] at hpar0
      omega
    have HInj := HInj_of_nodup x ts hnd
    have hNB := itemAt_ne_bye x ts hbye
    constructor
    · intro t ht u hu htu
      obtain ⟨pt, hptl, hpte⟩ := List.mem_iff_getElem.mp ht
      obtain ⟨qu, hqul, hque⟩ := List.mem_iff_getElem.mp hu
      have hptr : pt ≤ ts.length := by simp at hptl; omega
      have hqur : qu ≤ ts.length := by simp at hqul; omega
      have hti : itemAt x ts pt = t := by
        rw [itemAt_eq_getElem x ts (by simp; omega)]
        exact hpte
      have hui : itemAt x ts qu = u := by
        rw [itemAt_eq_getElem x ts (by simp; omega)]
        exact hque
      have hpq : pt ≠ qu := by
        intro he
        apply htu
        rw [← hti, ← hui, he]
      have htB : t.id ≠ "BYE" := fun hB =>
        hbye (hB ▸ List.mem_map_of_mem Team.id ht)
      have huB : u.id ≠ "BYE" := fun hB =>
        hbye (hB ▸ List.mem_map_of_mem Team.id hu)
      have hc := countP_pair_build x ts (startDate now) hm2 HInj
        pt qu hptr hqur hpq
        (by rw [hti]; exact htB) (by rw [hui]; exact huB)
      rw [hti, hui] at hc
      exact hc
    · have hroundlen : ∀ j, j < ts.length →
          (roundFixList (ts.length + 1) (startDate now) (0 + j)
            (rotIter (x :: ts) j)).length = (ts.length + 1) / 2 := by
        intro j hj
        rw [Nat.zero_add]
        exact length_roundFixList_nobye x ts (startDate now) j (by omega) hNB
      rw [length_buildPreview_const _ _ _ _ _ _ hroundlen]
      obtain ⟨h, hh⟩ : ∃ h, ts.length + 1 = 2 * h := ⟨(ts.length + 1) / 2, by omega⟩
      rw [show (ts.length + 1) / 2 = h from by omega,
        show (ts.length + 1) * ts.length = 2 * (h * ts.length) from by
          rw [hh]; ring,
        Nat.mul_div_cancel_left _ (by norm_num), Nat.mul_comm]

/-- Closed witness for `full_coverage` on a four-team roster. -/
theorem full_coverage_witness :
    (generateRoundRobinPreview
      [⟨"a", "A"⟩, ⟨"b", "B"⟩, ⟨"c", "C"⟩, ⟨"d", "D"⟩] ⟨0, 0⟩).countP
        (pairPred ⟨"a", "A"⟩ ⟨"c", "C"⟩) = 1 ∧
    (generateRoundRobinPreview
      [⟨"a", "A"⟩, ⟨"b", "B"⟩, ⟨"c", "C"⟩, ⟨"d", "D"⟩] ⟨0, 0⟩).length = 4 * (4 - 1) / 2 :=
  ⟨(full_coverage [⟨"a", "A"⟩, ⟨"b", "B"⟩, ⟨"c", "C"⟩, ⟨"d", "D"⟩] ⟨0, 0⟩
      (by decide) (by decide) (by decide)).1
      ⟨"a", "A"⟩ (by decide) ⟨"c", "C"⟩ (by decide) (by decide),
   (full_coverage [⟨"a", "A"⟩, ⟨"b", "B"⟩, ⟨"c", "C"⟩, ⟨"d", "D"⟩] ⟨0, 0⟩
      (by decide) (by decide) (by decide)).2⟩

/-- Per-round exclusivity over the loop: a fixed identifier is involved in at
most one fixture of any fixed round, and no fixture pairs an identifier with
itself. -/
theorem exclusivity_build (x : Team) (rest : List Team) (start : DateTime)
    (hm2 : rest.length % 2 = 1)
    (HInj : ∀ j1 j2, j1 ≤ rest.length → j2 ≤ rest.length →
      (itemAt x rest j1).id ≠ "BYE" →
      (itemAt x rest j1).id = (itemAt x rest j2).id → j1 = j2) :
    (∀ tid k,
      (buildPreview (rest.length + 1) start rest.length 0 (x :: rest)).countP
        (fun f => decide (f.round = k ∧ (f.home.id = tid ∨ f.away.id = tid)))
        ≤ 1) ∧
      ∀ f ∈ buildPreview (rest.length + 1) start rest.length 0 (x :: rest),
        f.home.id ≠ f.away.id := by
  have hm : 0 < rest.length := by omega
  have hposle : ∀ i : Nat, i < (rest.length + 1) / 2 → i ≤ rest.length := by omega
  constructor
  · intro tid k
    rw [countP_buildPreview]
    simp only [Nat.zero_add]
    set P : FixturePreview → Bool :=
      fun f => decide (f.round = k ∧ (f.home.id = tid ∨ f.away.id = tid))
      with hP
    have hzero : ∀ j, j < rest.length → j + 1 ≠ k →
        (roundFixList (rest.length + 1) start j
          (rotIter (x :: rest) j)).countP P = 0 := by
      intro j hj hjk
      rw [countP_roundFixList_slots]
      apply countP_range_eq_zero
      intro i _
      apply Bool.eq_false_iff.mpr
      intro ht
      simp only [hP, Bool.and_eq_true, decide_eq_true_eq] at ht
      exact hjk ht.2.1
    have hone : ∀ j, j < rest.length →
        (roundFixList (rest.length + 1) start j
          (rotIter (x :: rest) j)).countP P ≤ 1 := by
      intro j hj
      rw [countP_roundFixList_slots]
      apply countP_range_le_one
      intro i1 i2 h1 h2 ht1 ht2
      simp only [hP, Bool.and_eq_true, decide_eq_true_eq, Bool.not_eq_true',
        decide_eq_false_iff_not] at ht1 ht2
      obtain ⟨hs1, -, hm1⟩ := ht1
      obtain ⟨hs2, -, hm2'⟩ := ht2
      push_neg at hs1 hs2
      unfold slotHome slotAway at hs1 hs2 hm1 hm2'
      rcases hm1 with hh1 | ha1 <;> rcases hm2' with hh2 | ha2
      · exact idxAt_inj hm _ (hposle i1 h1) (hposle i2 h2)
          (HInj _ _ (idxAt_le hm _ _) (idxAt_le hm _ _) hs1.1
            (hh1.trans hh2.symm))
      · have := idxAt_inj hm _ (hposle i1 h1) (by omega)
          (HInj _ _ (idxAt_le hm _ _) (idxAt_le hm _ _) hs1.1
            (hh1.trans ha2.symm))
        omega
      · have := idxAt_inj hm _ (by omega) (hposle i2 h2)
          (HInj _ _ (idxAt_le hm _ _) (idxAt_le hm _ _) hs1.2
            (ha1.trans hh2.symm))
        omega
      · have := idxAt_inj hm _ (by omega) (by omega)
          (HInj _ _ (idxAt_le hm _ _) (idxAt_le hm _ _) hs1.2
            (ha1.trans ha2.symm))
        omega
    by_cases hex : ∃ j0, j0 < rest.length ∧ j0 + 1 = k
    · obtain ⟨j0, hj0, hj0k⟩ := hex
      rw [Finset.sum_eq_single_of_mem j0 (Finset.mem_range.mpr hj0)
        (fun j hj hne => hzero j (Finset.mem_range.mp hj) (by omega))]
      exact hone j0 hj0
    · push_neg at hex
      rw [Finset.sum_eq_zero
        (fun j hj => hzero j (Finset.mem_range.mp hj)
          (hex j (Finset.mem_range.mp hj)))]
      omega
  · intro f hf
    obtain ⟨j, hj, hfj⟩ := mem_buildPreview_decomp _ _ _ _ _ f hf
    rw [Nat.zero_add] at hfj
    obtain ⟨i, hi, hskip, rfl⟩ := mem_roundFixList_slots x rest start j f hfj
    intro hid
    push_neg at hskip
    unfold slotHome slotAway at hskip hid
    have := idxAt_inj hm _ (hposle i hi) (by omega)
      (HInj _ _ (idxAt_le hm _ _) (idxAt_le hm _ _) hskip.1 hid)
    omega

/-- C2: per-round exclusivity — for every roster with pairwise-distinct
identifiers, no identifier occurs in more than one matchup of any single
round, and no emitted matchup has home equal to away. -/
theorem per_round_exclusivity (teams : List Team) (now : DateTime)
    (hnd : (teams.map Team.id).Nodup) :
    (∀ tid k, (generateRoundRobinPreview teams now).countP
        (fun f => decide (f.round = k ∧ (f.home.id = tid ∨ f.away.id = tid)))
        ≤ 1) ∧
      ∀ f ∈ generateRoundRobinPreview teams now, f.home.id ≠ f.away.id := by
  by_cases hlt : teams.length < 2
  · rw [generateRoundRobinPreview_short teams now hlt]
    exact ⟨fun tid k => by simp, fun f hf => absurd hf (List.not_mem_nil f)⟩
  · have h2 : 2 ≤ teams.length := by omega
    obtain ⟨x, ts, rfl⟩ : ∃ x' ts', teams = x' :: ts' := by
      cases teams with
      | nil => simp at h2
      | cons a l => exact ⟨a, l, rfl⟩
    rw [generateRoundRobinPreview_eq _ now h2]
    by_cases hpar : (x :: ts).length % 2 = 1
    · rw [show paddedItems (x :: ts) = x :: (ts ++ [byeTeam]) from by
        rw [paddedItems_odd hpar]; rfl, List.length_cons, Nat.add_sub_cancel]
      have hm2 : (ts ++ [byeTeam]).length % 2 = 1 := by
        simp only [List.length_cons] at hpar
        simpa using hpar
      exact exclusivity_build x (ts ++ [byeTeam]) (startDate now) hm2
        (HInj_append_bye x ts hnd)
    · rw [paddedItems_even (by omega), List.length_cons, Nat.add_sub_cancel]
      have hm2 : ts.length % 2 = 1 := by
        simp only [List.length_cons] at hpar
        omega
      exact exclusivity_build x ts (startDate now) hm2 (HInj_of_nodup x ts hnd)

/-- Closed witness for `per_round_exclusivity` on a concrete roster. -/
theorem per_round_exclusivity_witness :
    (generateRoundRobinPreview
      [⟨"a", "A"⟩, ⟨"b", "B"⟩, ⟨"c", "C"⟩] ⟨0, 0⟩).countP
        (fun f => decide (f.round = 2 ∧ (f.home.id = "a" ∨ f.away.id = "a")))
        ≤ 1 :=
  (per_round_exclusivity [⟨"a", "A"⟩, ⟨"b", "B"⟩, ⟨"c", "C"⟩] ⟨0, 0⟩
    (by decide)).1 "a" 2

/-- Every round of the loop emits at least one fixture, when either no item
is the bye (even roster) or the bye sits exactly at the last index and the
tail has at least 3 entries (padded odd roster). -/
theorem nonempty_round_build (x : Team) (rest : List Team) (start : DateTime)
    (hm2 : rest.length % 2 = 1)
    (hB : (∀ j, j ≤ rest.length → (itemAt x rest j).id ≠ "BYE") ∨
      (3 ≤ rest.length ∧ ∀ j, j ≤ rest.length →
        ((itemAt x rest j).id = "BYE" ↔ j = rest.length))) :
    ∀ r, r < rest.length →
      ∃ f, f ∈ buildPreview (rest.length + 1) start rest.length 0 (x :: rest) ∧
        f.round = r + 1 := by
  have hm : 0 < rest.length := by omega
  intro r hr
  have hgood : ∃ i, i < (rest.length + 1) / 2 ∧
      ¬((slotHome x rest r i).id = "BYE" ∨ (slotAway x rest r i).id = "BYE") := by
    rcases hB with hNB | ⟨hm3, hOnly⟩
    · refine ⟨0, by omega, ?_⟩
      push_neg
      unfold slotHome slotAway
      exact ⟨hNB _ (idxAt_le hm _ _), hNB _ (idxAt_le hm _ _)⟩
    · by_cases hsk0 : (slotHome x rest r 0).id = "BYE" ∨
        (slotAway x rest r 0).id = "BYE"
      · refine ⟨1, by omega, ?_⟩
        unfold slotHome slotAway at hsk0 ⊢
        have hk0 : ∃ k0, (k0 = 0 ∨ k0 = rest.length) ∧
            idxAt rest.length (r * (rest.length - 1)) k0 = rest.length := by
          rcases hsk0 with h | h
          · exact ⟨0, Or.inl rfl, (hOnly _ (idxAt_le hm _ _)).mp h⟩
          · exact ⟨rest.length - 0, Or.inr (by omega),
              (hOnly _ (idxAt_le hm _ _)).mp h⟩
        obtain ⟨k0, hk0d, hk0e⟩ := hk0
        rintro (h | h)
        · have h1 := (hOnly _ (idxAt_le hm _ _)).mp h
          have := idxAt_inj hm _ (by omega) (by rcases hk0d with h' | h' <;> omega)
            (h1.trans hk0e.symm)
          rcases hk0d with h' | h' <;> omega
        · have h1 := (hOnly _ (idxAt_le hm _ _)).mp h
          have := idxAt_inj hm _ (by omega) (by rcases hk0d with h' | h' <;> omega)
            (h1.trans hk0e.symm)
          rcases hk0d with h' | h' <;> omega
      · exact ⟨0, by omega, hsk0⟩
  obtain ⟨i, hi, hskip⟩ := hgood
  refine ⟨⟨r + 1, slotHome x rest r i, slotAway x rest r i,
    start.addDays (r * 7)⟩, ?_, rfl⟩
  apply roundFixList_subset (rest.length + 1) start rest.length 0 (x :: rest) r _ hr
  rw [Nat.zero_add]
  exact slot_mem_roundFixList x rest start r i hi hskip

/-- For a bye-free roster, the appended bye placeholder is the only padded
item with the bye identifier. -/
theorem bye_only_last (x : Team) (ts : List Team)
    (hbye : "BYE" ∉ (x :: ts).map Team.id) :
    ∀ j, j ≤ (ts ++ [byeTeam]).length →
      ((itemAt x (ts ++ [byeTeam]) j).id = "BYE" ↔
        j = (ts ++ [byeTeam]).length) := by
  intro j hj
  have hl : (ts ++ [byeTeam]).length = ts.length + 1 := by simp
  constructor
  · intro hB
    by_contra hne
    have hjt : j ≤ ts.length := by omega
    rw [itemAt_append_eq x ts hjt] at hB
    exact itemAt_ne_bye x ts hbye j hjt hB
  · intro he
    rw [he, hl, itemAt_append_last]
    rfl

/-- C3 (amended): for every roster of `n ≥ 2` teams with pairwise-distinct
identifiers none of which is the literal `'BYE'`, the emitted round numbers
are exactly `1 .. R` with `R = n-1` for even `n` and `R = n` for odd `n`
(the odd case padding with one bye), and every one of these rounds contains
at least one real matchup. -/
theorem round_count (teams : List Team) (now : DateTime)
    (h2 : 2 ≤ teams.length) (hnd : (teams.map Team.id).Nodup)
    (hbye : "BYE" ∉ teams.map Team.id) :
    (∀ f ∈ generateRoundRobinPreview teams now,
      1 ≤ f.round ∧ f.round ≤
        (if teams.length % 2 = 0 then teams.length - 1 else teams.length)) ∧
      ∀ k, 1 ≤ k →
        k ≤ (if teams.length % 2 = 0 then teams.length - 1 else teams.length) →
        ∃ f ∈ generateRoundRobinPreview teams now, f.round = k := by
  obtain ⟨x, ts, rfl⟩ : ∃ x' ts', teams = x' :: ts' := by
    cases teams with
    | nil => simp at h2
    | cons a l => exact ⟨a, l, rfl⟩
  rw [generateRoundRobinPreview_eq _ now h2]
  by_cases hpar : (x :: ts).length % 2 = 1
  · -- odd roster
    have hR : (if (x :: ts).length % 2 = 0 then (x :: ts).length - 1
        else (x :: ts).length) = (ts ++ [byeTeam]).length := by
      rw [if_neg (by omega)]
      simp
    rw [hR, show paddedItems (x :: ts) = x :: (ts ++ [byeTeam]) from by
      rw [paddedItems_odd hpar]; rfl, List.length_cons, Nat.add_sub_cancel]
    have hm2 : (ts ++ [byeTeam]).length % 2 = 1 := by
      simp only [List.length_cons] at hpar
      simpa using hpar
    have hm3 : 3 ≤ (ts ++ [byeTeam]).length := by
      simp only [List.length_cons] at h2 hpar
      simp
      omega
    constructor
    · intro f hf
      obtain ⟨ha, hb, -, -, -⟩ := buildPreview_mem _ _ _ _ _ f hf
      omega
    · intro k hk1 hk2
      obtain ⟨f, hfm, hfr⟩ := nonempty_round_build x (ts ++ [byeTeam])
        (startDate now) hm2 (Or.inr ⟨hm3, bye_only_last x ts hbye⟩)
        (k - 1) (by omega)
      exact ⟨f, hfm, by omega⟩
  · -- even roster
    have hpar0 : (x :: ts).length % 2 = 0 := by omega
    have hR : (if (x :: ts).length % 2 = 0 then (x :: ts).length - 1
        else (x :: ts).length) = ts.length := by
      rw [if_pos hpar0]
      simp
    rw [hR, paddedItems_even hpar0, List.length_cons, Nat.add_sub_cancel]
    have hm2 : ts.length % 2 = 1 := by
      simp only [List.length_cons] at hpar0
      omega
    constructor
    · intro f hf
      obtain ⟨ha, hb, -, -, -⟩ := buildPreview_mem _ _ _ _ _ f hf
      omega
    · intro k hk1 hk2
      obtain ⟨f, hfm, hfr⟩ := nonempty_round_build x ts (startDate now) hm2
        (Or.inl (itemAt_ne_bye x ts hbye)) (k - 1) (by omega)
      exact ⟨f, hfm, by omega⟩

/-- Closed witness for `round_count` on a three-team roster: the schedule has
a round-2 fixture. -/
theorem round_count_witness :
    ∃ f ∈ generateRoundRobinPreview
      [⟨"a", "A"⟩, ⟨"b", "B"⟩, ⟨"c", "C"⟩] ⟨0, 0⟩, f.round = 2 :=
  (round_count [⟨"a", "A"⟩, ⟨"b", "B"⟩, ⟨"c", "C"⟩] ⟨0, 0⟩
    (by decide) (by decide) (by decide)).2 2 (by decide) (by decide)
